import Mathlib

/-!
Formal model of the fivewords pipeline (`load_words.py`): letter-signature
classification, the pairwise disjoint-union engine, the staged composition
maps, the memoized stage store, the output writer and the navigable
reconstruction walk, together with proofs of the specified properties.
-/

namespace FiveWords

/-- A corpus word: a list of characters (a Python `str`). -/
abbrev Word : Type := List Char

/-- A letter signature: the set of distinct characters of a word
(`frozenset(word)`). -/
abbrev Sig : Type := Finset Char

/-- A pair record, `frozenset((item, pair_mate))`: an unordered pair of
signatures (a one-element set when the two coincide). -/
abbrev PairRec : Type := Finset Sig

/-- `Composition`: a set of pair records, the value type of the stage maps. -/
abbrev Composition : Type := Finset PairRec

/-- `FiveWords._combined_word_set`: the union of the word sources. -/
def all_words (answers guesses : Finset Word) : Finset Word := answers ∪ guesses

/-- `FiveWords.heterogram_words`: the words whose length equals the number of
their distinct characters (`len(word) == len(frozenset(word))`). -/
def heterogram_words (ws : Finset Word) : Finset Word :=
  ws.filter fun w => w.length = w.toFinset.card

/-- `FiveWords.anagram_map`, value view: the dict entry at key `k` is the set
of heterogram words whose character set is exactly `k`. -/
def anagram_map (ws : Finset Word) (k : Sig) : Finset Word :=
  (heterogram_words ws).filter fun w => w.toFinset = k

/-- The key set of the `anagram_map` dict. -/
def anagramKeys (ws : Finset Word) : Finset Sig :=
  (heterogram_words ws).image fun w => w.toFinset

/-- `_work_function`, value view: for one outer `item` and the broadcast
collection `hg` (`global_heterograms`), the worker dict holds at `key` one
record `{item, mate}` for every `mate ∈ hg` that is disjoint from `item`
(`mate.isdisjoint(item)`, i.e. `mate ∩ item = ∅`) with `mate ∪ item = key`. -/
def work_function (hg : Finset Sig) (item : Sig) (key : Sig) : Composition :=
  (hg.filter fun mate => mate ∩ item = ∅ ∧ mate ∪ item = key).image
    fun mate => ({item, mate} : Finset Sig)

/-- The key set of one `_work_function` worker dict. -/
def workKeys (hg : Finset Sig) (item : Sig) : Finset Sig :=
  (hg.filter fun mate => mate ∩ item = ∅).image fun mate => mate ∪ item

/-- `_collator_function`, value view: iterate the outer items in a given order
and merge each worker dict into the accumulator by per-key set union
(`working_result[k].update(v)`). -/
def collator_function (combinations : Finset Sig) (items : List Sig) (key : Sig) : Composition :=
  items.foldl (fun acc item => acc ∪ work_function combinations item key) ∅

/-- Key set of `collator_function`. -/
def collator_keys (combinations : Finset Sig) (items : List Sig) : Finset Sig :=
  items.foldl (fun acc item => acc ∪ workKeys combinations item) ∅

/-- Order-free (set-level) result of the collator: the per-key union of all
worker results.  This is the canonical meaning of the merged dict, since the
source iterates a `frozenset` in unspecified order. -/
def collatorSet (combinations itemsSet : Finset Sig) (key : Sig) : Composition :=
  itemsSet.sup fun item => work_function combinations item key

/-- Order-free key set of the collator result. -/
def collatorSetKeys (combinations itemsSet : Finset Sig) : Finset Sig :=
  itemsSet.sup fun item => workKeys combinations item

/-- Map-reduce with explicit partitioning: run the collator on each chunk of
the outer collection and merge the partial result maps by per-key set
union. -/
def chunk_merge (combinations : Finset Sig) (chunks : List (List Sig)) (key : Sig) : Composition :=
  chunks.foldl (fun acc chunk => acc ∪ collator_function combinations chunk key) ∅

/-- Key set of the partitioned computation. -/
def chunk_merge_keys (combinations : Finset Sig) (chunks : List (List Sig)) : Finset Sig :=
  chunks.foldl (fun acc chunk => acc ∪ collator_keys combinations chunk) ∅

/-- `FiveWords.two_word_map`:
`_collator_function(anagram keys, anagram keys)`. -/
def two_word_map (ws : Finset Word) (key : Sig) : Composition :=
  collatorSet (anagramKeys ws) (anagramKeys ws) key

/-- Key set of the two-word stage. -/
def twoWordKeys (ws : Finset Word) : Finset Sig :=
  collatorSetKeys (anagramKeys ws) (anagramKeys ws)

/-- `FiveWords.three_word_map`:
`_collator_function(two-word keys, anagram keys)`. -/
def three_word_map (ws : Finset Word) (key : Sig) : Composition :=
  collatorSet (twoWordKeys ws) (anagramKeys ws) key

/-- Key set of the three-word stage. -/
def threeWordKeys (ws : Finset Word) : Finset Sig :=
  collatorSetKeys (twoWordKeys ws) (anagramKeys ws)

/-- `FiveWords.four_word_map`:
`_collator_function(two-word keys, two-word keys)`. -/
def four_word_map (ws : Finset Word) (key : Sig) : Composition :=
  collatorSet (twoWordKeys ws) (twoWordKeys ws) key

/-- Key set of the four-word stage. -/
def fourWordKeys (ws : Finset Word) : Finset Sig :=
  collatorSetKeys (twoWordKeys ws) (twoWordKeys ws)

/-- `FiveWords.five_word_map`:
`_collator_function(four-word keys, anagram keys)`. -/
def five_word_map (ws : Finset Word) (key : Sig) : Composition :=
  collatorSet (fourWordKeys ws) (anagramKeys ws) key

/-- Key set of the five-word stage. -/
def fiveWordKeys (ws : Finset Word) : Finset Sig :=
  collatorSetKeys (fourWordKeys ws) (anagramKeys ws)

/-- Spec-side description of a stage (spec table, operand wiring): the stage
computed from outer operand `A` and inner operand `B` holds, at `key`, the
unordered pairs `{a, b}` with `a ∈ A`, `b ∈ B`, `a ∩ b = ∅` and
`a ∪ b = key`. -/
def union_pairs_spec (A B : Finset Sig) (key : Sig) : Composition :=
  ((A ×ˢ B).filter fun ab => ab.1 ∩ ab.2 = ∅ ∧ ab.1 ∪ ab.2 = key).image
    fun ab => ({ab.1, ab.2} : Finset Sig)

/-- Ordered insertion of a character into a list, used to give each finite
character set a canonical list of its elements. -/
def insertChar (c : Char) : List Char → List Char
  | [] => [c]
  | d :: ds => if c ≤ d then c :: d :: ds else d :: insertChar c ds

instance instInsertCharLeftComm : LeftCommutative insertChar := by
  constructor
  have key : ∀ x y : Char, x < y → ∀ l : List Char,
      insertChar x (insertChar y l) = insertChar y (insertChar x l) := by
    intro x y hxy l
    induction l with
    | nil => simp [insertChar, le_of_lt hxy, not_le.mpr hxy]
    | cons d ds ih =>
      by_cases hyd : y ≤ d
      · have hxd : x ≤ d := le_of_lt (lt_of_lt_of_le hxy hyd)
        simp [insertChar, hyd, hxd, le_of_lt hxy, not_le.mpr hxy]
      · by_cases hxd : x ≤ d
        · simp [insertChar, hyd, hxd, not_le.mpr hxy]
        · simp [insertChar, hyd, hxd, ih]
  intro a b l
  rcases eq_or_ne a b with rfl | hne
  · rfl
  · rcases hne.lt_or_lt with h | h
    · exact key a b h l
    · exact (key b a h l).symm

/-- Canonical list of the characters of a signature: fold the ordered insert
over the underlying multiset (well defined because `insertChar` is
left-commutative). -/
def sigChars (s : Sig) : List Char := Multiset.foldr insertChar [] s.val

/-- All subsets of `u`, as a list: the image under `List.toFinset` of the
sublists of the canonical character list of `u`. -/
def sigSubsets (u : Sig) : List Sig := (sigChars u).sublists.map List.toFinset

/-- The set of component signatures appearing in some pair record of `c`. -/
def compParts (c : Composition) : Finset Sig := c.sup id

/-- The component signatures pushed onto the work queue when a stage value `c`
is expanded (`part for pair in item_values for part in pair`), in canonical
order and deduplicated. -/
def navParts (c : Composition) : List Sig :=
  (sigSubsets ((compParts c).sup id)).filter fun a => decide (a ∈ compParts c)

/-- A value stored in the reconstruction results dict: either a set of words
(base stage) or a set of pair records (composite stages). -/
inductive NavVal where
  | words (s : Finset Word)
  | pairs (c : Composition)
deriving DecidableEq

/-- The failure modes of the reconstruction walk: `badLen` models the
`KeyError` from `lookup_dict[item_len]`, `missingKey` the `KeyError` from
indexing a stage dict with an absent signature. -/
inductive NavErr where
  | badLen (n : Nat)
  | missingKey (s : Sig)
deriving DecidableEq

instance instExceptDecEq {ε α : Type} [DecidableEq ε] [DecidableEq α] :
    DecidableEq (Except ε α) := fun x y =>
  match x, y with
  | Except.error e, Except.error f =>
    if h : e = f then isTrue (by rw [h])
    else isFalse (by intro hc; injection hc with h2; exact h h2)
  | Except.ok a, Except.ok b =>
    if h : a = b then isTrue (by rw [h])
    else isFalse (by intro hc; injection hc with h2; exact h h2)
  | Except.error _, Except.ok _ => isFalse (by intro hc; cases hc)
  | Except.ok _, Except.error _ => isFalse (by intro hc; cases hc)

/-- The `lookup_dict` of `navigable_map`: the stage (key set and value map)
responsible for a given signature cardinality, if any. -/
def stageValAt (ws : Finset Word) (n : Nat) : Option (Finset Sig × (Sig → NavVal)) :=
  if n = 5 then some (anagramKeys ws, fun s => NavVal.words (anagram_map ws s))
  else if n = 10 then some (twoWordKeys ws, fun s => NavVal.pairs (two_word_map ws s))
  else if n = 15 then some (threeWordKeys ws, fun s => NavVal.pairs (three_word_map ws s))
  else if n = 20 then some (fourWordKeys ws, fun s => NavVal.pairs (four_word_map ws s))
  else if n = 25 then some (fiveWordKeys ws, fun s => NavVal.pairs (five_word_map ws s))
  else none

/-- The key set of the stage serving cardinality `n`, if any. -/
def stageKeysAt (ws : Finset Word) (n : Nat) : Option (Finset Sig) :=
  (stageValAt ws n).map Prod.fst

/-- One lookup of the reconstruction walk, `lookup_dict[len(item)]()[item]`,
with the two `KeyError` paths explicit. -/
def stageLookup (ws : Finset Word) (item : Sig) : Except NavErr NavVal :=
  match stageValAt ws item.card with
  | none => Except.error (NavErr.badLen item.card)
  | some kv =>
    if item ∈ kv.1 then Except.ok (kv.2 item) else Except.error (NavErr.missingKey item)

/-- Parts pushed after recording `item`: only composite signatures
(`item_len > 5`) are expanded. -/
def navPushes (item : Sig) (v : NavVal) : List Sig :=
  if 5 < item.card then
    match v with
    | NavVal.words _ => []
    | NavVal.pairs c => navParts c
  else []

/-- The work loop of `FiveWords.navigable_map`.  The queue is the deque with
its right end first (`pop()` takes the head, `extendleft` appends at the
tail); `results` is the insertion-ordered results dict.  `fuel` bounds the
number of iterations; `none` means the bound was hit. -/
def navLoop (ws : Finset Word) :
    Nat → List Sig → List (Sig × NavVal) →
    Option (Except NavErr (List (Sig × NavVal)))
  | 0, _, _ => none
  | _ + 1, [], results => some (Except.ok results)
  | fuel + 1, item :: rest, results =>
    if item ∈ results.map Prod.fst then
      navLoop ws fuel rest results
    else
      match stageLookup ws item with
      | Except.error e => some (Except.error e)
      | Except.ok v =>
        navLoop ws fuel (rest ++ navPushes item v) (results ++ [(item, v)])

/-- `FiveWords.navigable_map`, with explicit fuel. -/
def navigable_map (ws : Finset Word) (fuel : Nat) (starting_points : List Sig) :
    Option (Except NavErr (List (Sig × NavVal))) :=
  navLoop ws fuel starting_points []

/-- The state visible to one cached stage accessor: the stored value under its
key, the timing history under the `_times` key, the in-process
`functools.cache` memo of the wrapper (keyed by the `force` argument), and a
count of how many times the wrapped compute function has run. -/
structure StageCache (V : Type) where
  stored : Option V
  times : List Nat
  memo : Bool → Option V
  computeCount : Nat

/-- The body of `_load_or_calculate.wrapper` without the `functools.cache`
layer: if the key is absent or `force` is set, run the compute function,
persist the result under the key, and append the elapsed time to the timing
history; otherwise return the stored value unchanged.  The returned value is
the final `self.shelf[value_name]` read. -/
def wrapper_body {V : Type} (compute : V) (elapsed : Nat) (force : Bool)
    (st : StageCache V) : V × StageCache V :=
  match st.stored, force with
  | some v, false => (v, st)
  | _, _ =>
    (compute,
      { st with
        stored := some compute
        times := st.times ++ [elapsed]
        computeCount := st.computeCount + 1 })

/-- One call of the cached accessor (the `@cache`-decorated wrapper): a memo
hit returns the memoized value without touching the store; a miss runs the
wrapper body and memoizes its return value. -/
def cached_call {V : Type} (compute : V) (elapsed : Nat) (force : Bool)
    (st : StageCache V) : V × StageCache V :=
  match st.memo force with
  | some v => (v, st)
  | none =>
    let r := wrapper_body compute elapsed force st
    (r.1, { r.2 with memo := fun b => if b = force then some r.1 else r.2.memo b })

/-- A fragment of the dynamic values a `shelve` store can hold: `shelve`
deserializes whatever was stored, with no connection to the annotated type. -/
inductive PyObj where
  | pyStr (s : List Char)
  | pyInt (n : Int)
  | pySet (elems : List PyObj)

/-- The structural type expected of a stored word set (an entry annotated
`frozenset[str]`, such as `heterogram_set`): a set whose elements are all
strings. -/
def is_word_set : PyObj → Bool
  | PyObj.pySet elems =>
    elems.all fun x =>
      match x with
      | PyObj.pyStr _ => true
      | _ => false
  | _ => false

/-- The `maps_map` dictionary `save_maps` builds: the five stage maps. -/
structure MapsSnapshot where
  anagrams : Sig → Finset Word
  twoWords : Sig → Composition
  threeWords : Sig → Composition
  fourWords : Sig → Composition
  fiveWords : Sig → Composition

/-- The dictionary of stage maps assembled by `save_maps`. -/
def maps_map (ws : Finset Word) : MapsSnapshot :=
  ⟨anagram_map ws, two_word_map ws, three_word_map ws, four_word_map ws, five_word_map ws⟩

/-- `FiveWords.save_maps`: build `maps_map`; if `pprint.isreadable` accepts
it, write `pprint.saferepr` of it to the output file and return `True`;
otherwise return `False` and leave the output file untouched.  The two
serializer functions are abstract parameters (external `pprint`
collaborators); `prev` is the previous content of the output file. -/
def save_maps {σ : Type} (isreadable : MapsSnapshot → Bool)
    (saferepr : MapsSnapshot → σ) (ws : Finset Word) (prev : Option σ) :
    Bool × Option σ :=
  if isreadable (maps_map ws) then (true, some (saferepr (maps_map ws)))
  else (false, prev)

/-- An empty store state for a `Nat`-valued stage accessor. -/
def emptyCache : StageCache Nat := ⟨none, [], fun _ => none, 0⟩

/-- A ten-letter word. -/
def tenWord : Word := ['a', 'b', 'c', 'd', 'e', 'f', 'g', 'h', 'i', 'j']

/-- A corpus containing the empty word and a ten-letter word. -/
def exCorpus : Finset Word := {([] : Word), tenWord}

/-- The signature of the ten-letter word. -/
def exSig : Sig := tenWord.toFinset

/-- A five-letter word. -/
def wordA : Word := ['a', 'b', 'c', 'd', 'e']

/-- Another five-letter word, letter-disjoint from `wordA`. -/
def wordB : Word := ['f', 'g', 'h', 'i', 'j']

/-- A two-word corpus of disjoint five-letter words. -/
def pairCorpus : Finset Word := {wordA, wordB}

/-- The ten-letter union signature of the two-word corpus. -/
def pairKey : Sig := wordA.toFinset ∪ wordB.toFinset

theorem mem_work_function {hg : Finset Sig} {item key : Sig} {p : PairRec} :
    p ∈ work_function hg item key ↔
      ∃ mate ∈ hg, mate ∩ item = ∅ ∧ mate ∪ item = key ∧ p = {item, mate} := by
  simp only [work_function, Finset.mem_image, Finset.mem_filter]
  constructor
  · rintro ⟨mate, ⟨hm, hint, hun⟩, hp⟩
    exact ⟨mate, hm, hint, hun, hp.symm⟩
  · rintro ⟨mate, hm, hint, hun, hp⟩
    exact ⟨mate, ⟨hm, hint, hun⟩, hp.symm⟩

theorem mem_workKeys {hg : Finset Sig} {item k : Sig} :
    k ∈ workKeys hg item ↔ ∃ mate ∈ hg, mate ∩ item = ∅ ∧ mate ∪ item = k := by
  simp only [workKeys, Finset.mem_image, Finset.mem_filter]
  constructor
  · rintro ⟨mate, ⟨hm, hint⟩, hun⟩
    exact ⟨mate, hm, hint, hun⟩
  · rintro ⟨mate, hm, hint, hun⟩
    exact ⟨mate, ⟨hm, hint⟩, hun⟩

theorem mem_collatorSet {C I : Finset Sig} {key : Sig} {p : PairRec} :
    p ∈ collatorSet C I key ↔
      ∃ item ∈ I, ∃ mate ∈ C, mate ∩ item = ∅ ∧ mate ∪ item = key ∧ p = {item, mate} := by
  simp only [collatorSet, Finset.mem_sup, mem_work_function]

theorem mem_collatorSetKeys {C I : Finset Sig} {k : Sig} :
    k ∈ collatorSetKeys C I ↔
      ∃ item ∈ I, ∃ mate ∈ C, mate ∩ item = ∅ ∧ mate ∪ item = k := by
  simp only [collatorSetKeys, Finset.mem_sup, mem_workKeys]

theorem foldl_union_eq_sup {α β : Type} [DecidableEq α] [DecidableEq β] (f : α → Finset β) :
    ∀ (l : List α) (acc : Finset β),
      l.foldl (fun a i => a ∪ f i) acc = acc ∪ l.toFinset.sup f := by
  intro l
  induction l with
  | nil => intro acc; simp
  | cons i l ih =>
    intro acc
    simp only [List.foldl_cons, List.toFinset_cons, Finset.sup_insert, ih]
    rw [Finset.sup_eq_union, ← Finset.union_assoc]

theorem collator_function_eq_collatorSet (C : Finset Sig) (items : List Sig) (key : Sig) :
    collator_function C items key = collatorSet C items.toFinset key := by
  rw [collator_function, foldl_union_eq_sup, Finset.empty_union, collatorSet]

theorem collator_keys_eq_collatorSetKeys (C : Finset Sig) (items : List Sig) :
    collator_keys C items = collatorSetKeys C items.toFinset := by
  rw [collator_keys, foldl_union_eq_sup, Finset.empty_union, collatorSetKeys]

theorem chunk_merge_foldl (C : Finset Sig) (key : Sig) :
    ∀ (chunks : List (List Sig)) (acc : Composition),
      chunks.foldl (fun a ch => a ∪ collator_function C ch key) acc
        = acc ∪ collatorSet C chunks.flatten.toFinset key := by
  intro chunks
  induction chunks with
  | nil => intro acc; simp [collatorSet]
  | cons ch chs ih =>
    intro acc
    simp only [List.foldl_cons, ih, List.flatten_cons, List.toFinset_append]
    rw [collator_function_eq_collatorSet, collatorSet, collatorSet, collatorSet,
      Finset.sup_union, Finset.sup_eq_union, ← Finset.union_assoc]

theorem chunk_merge_keys_foldl (C : Finset Sig) :
    ∀ (chunks : List (List Sig)) (acc : Finset Sig),
      chunks.foldl (fun a ch => a ∪ collator_keys C ch) acc
        = acc ∪ collatorSetKeys C chunks.flatten.toFinset := by
  intro chunks
  induction chunks with
  | nil => intro acc; simp [collatorSetKeys]
  | cons ch chs ih =>
    intro acc
    simp only [List.foldl_cons, ih, List.flatten_cons, List.toFinset_append]
    rw [collator_keys_eq_collatorSetKeys, collatorSetKeys, collatorSetKeys, collatorSetKeys,
      Finset.sup_union, Finset.sup_eq_union, ← Finset.union_assoc]

theorem collatorSet_eq_union_pairs_spec (C I : Finset Sig) (key : Sig) :
    collatorSet C I key = union_pairs_spec C I key := by
  ext p
  rw [mem_collatorSet]
  simp only [union_pairs_spec, Finset.mem_image, Finset.mem_filter, Finset.mem_product]
  constructor
  · rintro ⟨item, hI, mate, hC, hint, hun, hp⟩
    exact ⟨(mate, item), ⟨⟨hC, hI⟩, hint, hun⟩, by rw [hp, Finset.pair_comm]⟩
  · rintro ⟨⟨a, b⟩, ⟨⟨hC, hI⟩, hint, hun⟩, hp⟩
    exact ⟨b, hI, a, hC, hint, hun, by rw [← hp, Finset.pair_comm]⟩

/-- Claim C1: every pair record the disjoint-union engine emits consists of
two signatures `a`, `b` with `a ∩ b = ∅`, stored under the key `a ∪ b`, whose
cardinality is `|a| + |b|`; consequently, in every stage map each pair
record's components are pairwise disjoint and the key's cardinality is the
sum of the components' cardinalities. -/
theorem c1_engine_disjoint_union_card :
    (∀ (hg : Finset Sig) (item key : Sig) (p : PairRec), p ∈ work_function hg item key →
      ∃ a b, p = {a, b} ∧ a ∩ b = ∅ ∧ key = a ∪ b ∧ key.card = a.card + b.card) ∧
    (∀ (ws : Finset Word) (key : Sig) (p : PairRec), p ∈ two_word_map ws key →
      ∃ a b, p = {a, b} ∧ a ∩ b = ∅ ∧ key = a ∪ b ∧ key.card = a.card + b.card) ∧
    (∀ (ws : Finset Word) (key : Sig) (p : PairRec), p ∈ three_word_map ws key →
      ∃ a b, p = {a, b} ∧ a ∩ b = ∅ ∧ key = a ∪ b ∧ key.card = a.card + b.card) ∧
    (∀ (ws : Finset Word) (key : Sig) (p : PairRec), p ∈ four_word_map ws key →
      ∃ a b, p = {a, b} ∧ a ∩ b = ∅ ∧ key = a ∪ b ∧ key.card = a.card + b.card) ∧
    (∀ (ws : Finset Word) (key : Sig) (p : PairRec), p ∈ five_word_map ws key →
      ∃ a b, p = {a, b} ∧ a ∩ b = ∅ ∧ key = a ∪ b ∧ key.card = a.card + b.card) := by
  have build : ∀ (item mate key : Sig), mate ∩ item = ∅ → mate ∪ item = key →
      ∀ p : PairRec, p = {item, mate} →
      ∃ a b, p = {a, b} ∧ a ∩ b = ∅ ∧ key = a ∪ b ∧ key.card = a.card + b.card := by
    intro item mate key hint hun p hpeq
    refine ⟨item, mate, hpeq, ?_, ?_, ?_⟩
    · rw [Finset.inter_comm]; exact hint
    · rw [← hun, Finset.union_comm]
    · rw [← hun, Finset.card_union_of_disjoint (Finset.disjoint_iff_inter_eq_empty.mpr hint)]
      exact Nat.add_comm _ _
  have coreC : ∀ (C I : Finset Sig) (key : Sig) (p : PairRec), p ∈ collatorSet C I key →
      ∃ a b, p = {a, b} ∧ a ∩ b = ∅ ∧ key = a ∪ b ∧ key.card = a.card + b.card := by
    intro C I key p hp
    obtain ⟨item, _, mate, _, hint, hun, hpeq⟩ := mem_collatorSet.mp hp
    exact build item mate key hint hun p hpeq
  refine ⟨?_, ?_, ?_, ?_, ?_⟩
  · intro hg item key p hp
    obtain ⟨mate, _, hint, hun, hpeq⟩ := mem_work_function.mp hp
    exact build item mate key hint hun p hpeq
  · intro ws key p hp; exact coreC _ _ _ _ hp
  · intro ws key p hp; exact coreC _ _ _ _ hp
  · intro ws key p hp; exact coreC _ _ _ _ hp
  · intro ws key p hp; exact coreC _ _ _ _ hp

/-- Witness for C1 at a concrete input: the worker result for outer item
`{a}` against the broadcast collection `{{b}}` holds at key `{a, b}` the pair
record `{{a}, {b}}`. -/
theorem c1_engine_disjoint_union_card_witness :
    ∃ a b, ({{'a'}, {'b'}} : PairRec) = {a, b} ∧ a ∩ b = ∅ ∧
      ({'a', 'b'} : Sig) = a ∪ b ∧ ({'a', 'b'} : Sig).card = a.card + b.card :=
  c1_engine_disjoint_union_card.1 {{'b'}} {'a'} {'a', 'b'} {{'a'}, {'b'}} (by decide)

/-- Claim C2: partitioning the outer collection into chunks, running the
engine per chunk and merging the partial maps by per-key set union gives the
same map (same keys, same value sets) as the non-partitioned computation; the
result only depends on the set of outer items, not on order or
partitioning. -/
theorem c2_map_reduce_equivalence :
    ∀ (C : Finset Sig) (chunks : List (List Sig)) (items : List Sig) (key : Sig),
      chunks.flatten.toFinset = items.toFinset →
      chunk_merge C chunks key = collator_function C items key ∧
      chunk_merge_keys C chunks = collator_keys C items ∧
      collator_function C items key = collatorSet C items.toFinset key := by
  intro C chunks items key h
  refine ⟨?_, ?_, collator_function_eq_collatorSet C items key⟩
  · rw [chunk_merge, chunk_merge_foldl, Finset.empty_union, h,
      collator_function_eq_collatorSet]
  · rw [chunk_merge_keys, chunk_merge_keys_foldl, Finset.empty_union, h,
      collator_keys_eq_collatorSetKeys]

/-- Witness for C2 at a concrete input: two singleton chunks against the
reversed one-piece item list give the same stage map entry. -/
theorem c2_map_reduce_equivalence_witness :
    chunk_merge {{'a'}} [[{'b'}], [{'c'}]] {'a', 'b'}
      = collator_function {{'a'}} [{'c'}, {'b'}] {'a', 'b'} :=
  (c2_map_reduce_equivalence {{'a'}} [[{'b'}], [{'c'}]] [{'c'}, {'b'}] {'a', 'b'}
    (by decide)).1

/-- Counterexample to claim C3 as stated: with a corpus containing the empty
word, the two-word stage holds at key `∅` the one-element pair record `{∅}`,
i.e. the engine pairs the empty signature with itself. -/
theorem c3_self_pair_counterexample :
    ({(∅ : Sig)} : PairRec) ∈ two_word_map {([] : Word)} ∅ ∧
    ({(∅ : Sig)} : PairRec).card = 1 := by decide

/-- Claim C3, amended: the engine never pairs two signatures that share a
letter, and a signature is paired with itself only if it is the empty
signature (which only an empty corpus word produces). -/
theorem c3_no_shared_letter_pairs :
    (∀ (hg : Finset Sig) (item key : Sig) (p : PairRec), p ∈ work_function hg item key →
      ∃ a b, p = {a, b} ∧ a ∩ b = ∅ ∧ (a = b → a = ∅)) ∧
    (∀ (C I : Finset Sig) (key : Sig) (p : PairRec), p ∈ collatorSet C I key →
      ∃ a b, p = {a, b} ∧ a ∩ b = ∅ ∧ (a = b → a = ∅)) := by
  have build : ∀ (item mate : Sig), mate ∩ item = ∅ → ∀ p : PairRec, p = {item, mate} →
      ∃ a b, p = {a, b} ∧ a ∩ b = ∅ ∧ (a = b → a = ∅) := by
    intro item mate hint p hpeq
    refine ⟨item, mate, hpeq, by rw [Finset.inter_comm]; exact hint, ?_⟩
    intro heq
    rw [← heq] at hint
    rw [Finset.inter_self] at hint
    exact hint
  constructor
  · intro hg item key p hp
    obtain ⟨mate, _, hint, _, hpeq⟩ := mem_work_function.mp hp
    exact build item mate hint p hpeq
  · intro C I key p hp
    obtain ⟨item, _, mate, _, hint, _, hpeq⟩ := mem_collatorSet.mp hp
    exact build item mate hint p hpeq

/-- Witness for the amended C3 at a concrete input. -/
theorem c3_no_shared_letter_pairs_witness :
    ∃ a b, ({{'a'}, {'b'}} : PairRec) = {a, b} ∧ a ∩ b = ∅ ∧ (a = b → a = ∅) :=
  c3_no_shared_letter_pairs.2 {{'a'}} {{'b'}} {'a', 'b'} {{'a'}, {'b'}} (by decide)

/-- Claim C6: the stage operand wiring is exactly the spec table — two-word
from anagram keys × anagram keys, three-word from two-word keys × anagram
keys, four-word from two-word keys × two-word keys, five-word from four-word
keys × anagram keys. -/
theorem c6_stage_operand_wiring :
    ∀ (ws : Finset Word) (key : Sig),
      two_word_map ws key = union_pairs_spec (anagramKeys ws) (anagramKeys ws) key ∧
      three_word_map ws key = union_pairs_spec (twoWordKeys ws) (anagramKeys ws) key ∧
      four_word_map ws key = union_pairs_spec (twoWordKeys ws) (twoWordKeys ws) key ∧
      five_word_map ws key = union_pairs_spec (fourWordKeys ws) (anagramKeys ws) key :=
  fun _ _ =>
    ⟨collatorSet_eq_union_pairs_spec _ _ _, collatorSet_eq_union_pairs_spec _ _ _,
      collatorSet_eq_union_pairs_spec _ _ _, collatorSet_eq_union_pairs_spec _ _ _⟩

/-- Claim C7: every word stored in the anagram map under key `k` has
character set exactly `k` (so all words under one key are mutual anagrams),
the heterogram filter keeps exactly the words whose character-set cardinality
equals their length, and every retained word appears under its own
signature. -/
theorem c7_anagram_roundtrip :
    ∀ ws : Finset Word,
      (∀ (k : Sig) (w : Word), w ∈ anagram_map ws k → w.toFinset = k) ∧
      (∀ (k : Sig) (w w' : Word), w ∈ anagram_map ws k → w' ∈ anagram_map ws k →
        w.toFinset = w'.toFinset) ∧
      (∀ w : Word, w ∈ heterogram_words ws ↔ w ∈ ws ∧ w.length = w.toFinset.card) ∧
      (∀ w : Word, w ∈ heterogram_words ws → w ∈ anagram_map ws w.toFinset) := by
  intro ws
  refine ⟨?_, ?_, ?_, ?_⟩
  · intro k w hw
    exact (Finset.mem_filter.mp hw).2
  · intro k w w' hw hw'
    rw [(Finset.mem_filter.mp hw).2, (Finset.mem_filter.mp hw').2]
  · intro w
    simp [heterogram_words, Finset.mem_filter]
  · intro w hw
    exact Finset.mem_filter.mpr ⟨hw, rfl⟩

/-- Witness for C7 at a concrete input. -/
theorem c7_anagram_roundtrip_witness :
    (['a', 'b'] : Word).toFinset = ({'a', 'b'} : Sig) ∧
    (['a', 'b'] : Word) ∈ anagram_map {(['a', 'b'] : Word)} (['a', 'b'] : Word).toFinset :=
  ⟨(c7_anagram_roundtrip {['a', 'b']}).1 {'a', 'b'} ['a', 'b'] (by decide),
    (c7_anagram_roundtrip {['a', 'b']}).2.2.2 ['a', 'b'] (by decide)⟩

/-- Claim C10: `save_maps` writes the serialized maps dictionary and returns
`True` exactly when the serializer accepts the dictionary as readable; when
it does not, it returns `False` and the output file is left unchanged. -/
theorem c10_save_maps_readability :
    ∀ {σ : Type} (isreadable : MapsSnapshot → Bool) (saferepr : MapsSnapshot → σ)
      (ws : Finset Word) (prev : Option σ),
      (isreadable (maps_map ws) = true →
        save_maps isreadable saferepr ws prev = (true, some (saferepr (maps_map ws)))) ∧
      (isreadable (maps_map ws) = false →
        save_maps isreadable saferepr ws prev = (false, prev)) := by
  intro σ isreadable saferepr ws prev
  constructor
  · intro h; simp [save_maps, h]
  · intro h; simp [save_maps, h]

/-- Witness for C10 at a concrete input: a rejecting serializer leaves the
output file unwritten and yields `False`. -/
theorem c10_save_maps_readability_witness :
    save_maps (fun _ => false) (fun _ => (0 : Nat)) (∅ : Finset Word) none = (false, none) :=
  (c10_save_maps_readability (fun _ => false) (fun _ => (0 : Nat)) ∅ none).2 rfl

/-- Counterexample to claim C4 as stated: two successive calls with
`force = true` on a fresh store run the compute function only once and append
only one timing sample — the second forced call is served by the in-process
`functools.cache` memo and does not recompute. -/
theorem c4_force_recompute_counterexample :
    (cached_call 42 7 true (cached_call 42 7 true emptyCache).2).2.computeCount = 1 ∧
    (cached_call 42 7 true (cached_call 42 7 true emptyCache).2).2.times = [7] ∧
    ¬ (cached_call 42 7 true (cached_call 42 7 true emptyCache).2).2.computeCount = 2 := by
  decide

/-- Claim C4, amended: on a call not yet served by the in-process memo, the
store contract holds as specified — key absent or `force` set runs the
compute function, appends the elapsed time to the timing history preserving
earlier samples, and persists the result; otherwise the stored value is
returned with the store unchanged.  A call served by the memo returns the
memoized value with no effect at all, so a repeated `force = true` call does
not recompute. -/
theorem c4_store_contract :
    ∀ {V : Type} (compute : V) (elapsed : Nat) (force : Bool) (st : StageCache V),
      (st.memo force = none → (st.stored = none ∨ force = true) →
        cached_call compute elapsed force st =
          (compute,
            ⟨some compute, st.times ++ [elapsed],
              fun b => if b = force then some compute else st.memo b,
              st.computeCount + 1⟩)) ∧
      (st.memo force = none → ∀ v, st.stored = some v → force = false →
        cached_call compute elapsed force st =
          (v, ⟨some v, st.times,
            fun b => if b = force then some v else st.memo b, st.computeCount⟩)) ∧
      (∀ v, st.memo force = some v → cached_call compute elapsed force st = (v, st)) := by
  intro V compute elapsed force st
  refine ⟨?_, ?_, ?_⟩
  · intro hmemo hrec
    cases st with
    | mk stored times memo cnt =>
      have hm : memo force = none := hmemo
      rcases hrec with hs | hf
      · subst hs
        simp [cached_call, wrapper_body, hm]
      · subst hf
        cases stored with
        | none => simp [cached_call, wrapper_body, hm]
        | some v => simp [cached_call, wrapper_body, hm]
  · intro hmemo v hv hf
    cases st with
    | mk stored times memo cnt =>
      have hm : memo force = none := hmemo
      subst hf
      subst hv
      simp [cached_call, wrapper_body, hm]
  · intro v hv
    cases st with
    | mk stored times memo cnt =>
      have hm : memo force = some v := hv
      simp [cached_call, hm]

/-- Witness for the amended C4 at a concrete input: the first forced call on
a fresh store computes, persists and records one timing sample. -/
theorem c4_store_contract_witness :
    cached_call 5 3 true emptyCache =
      (5, ⟨some 5, [3], fun b => if b = true then some 5 else emptyCache.memo b, 1⟩) :=
  (c4_store_contract 5 3 true emptyCache).1 rfl (Or.inr rfl)

/-- Counterexample to claim C5 as stated: a stored value that is not of the
expected structural type for its key (an int where a word set is expected) is
returned unchanged by a read, with no validation and no error — the read path
of the accessor has no failure channel at all. -/
theorem c5_shape_validation_counterexample :
    is_word_set (PyObj.pyInt 3) = false ∧
    (cached_call (PyObj.pySet []) 0 false
      ⟨some (PyObj.pyInt 3), [], fun _ => none, 0⟩).1 = PyObj.pyInt 3 ∧
    (cached_call (PyObj.pySet []) 0 false
      ⟨some (PyObj.pyInt 3), [], fun _ => none, 0⟩).2.stored = some (PyObj.pyInt 3) :=
  ⟨rfl, rfl, rfl⟩

/-- Claim C5, amended: a read of a stored value returns it exactly as stored,
whatever its shape — no validation is performed and no mismatch is ever
surfaced on the read path. -/
theorem c5_read_returns_stored_unvalidated :
    ∀ (d : PyObj) (times : List Nat) (cnt : Nat) (compute : PyObj) (elapsed : Nat),
      (cached_call compute elapsed false ⟨some d, times, fun _ => none, cnt⟩).1 = d ∧
      (cached_call compute elapsed false ⟨some d, times, fun _ => none, cnt⟩).2.stored = some d ∧
      (cached_call compute elapsed false ⟨some d, times, fun _ => none, cnt⟩).2.times = times ∧
      (cached_call compute elapsed false
        ⟨some d, times, fun _ => none, cnt⟩).2.computeCount = cnt :=
  fun _ _ _ _ _ => ⟨rfl, rfl, rfl, rfl⟩

theorem insertChar_perm (c : Char) : ∀ l : List Char, (insertChar c l).Perm (c :: l) := by
  intro l
  induction l with
  | nil => exact List.Perm.refl _
  | cons d ds ih =>
    by_cases h : c ≤ d
    · simp only [insertChar, if_pos h]
      exact List.Perm.refl _
    · simp only [insertChar, if_neg h]
      exact (ih.cons d).trans (List.Perm.swap c d ds)

theorem foldr_insertChar_perm : ∀ l : List Char, (l.foldr insertChar []).Perm l := by
  intro l
  induction l with
  | nil => exact List.Perm.refl _
  | cons c cs ih =>
    simp only [List.foldr_cons]
    exact (insertChar_perm c _).trans (ih.cons c)

theorem mem_sigChars {u : Sig} {c : Char} : c ∈ sigChars u ↔ c ∈ u := by
  have key : ∀ s : Multiset Char, c ∈ Multiset.foldr insertChar [] s ↔ c ∈ s := by
    intro s
    refine Quot.inductionOn s ?_
    intro l
    change c ∈ List.foldr insertChar [] l ↔ c ∈ (l : Multiset Char)
    rw [Multiset.mem_coe]
    exact (foldr_insertChar_perm l).mem_iff
  rw [sigChars, key u.val, ← Finset.mem_def]

theorem toFinset_sigChars (u : Sig) : (sigChars u).toFinset = u :=
  Finset.ext fun c => by rw [List.mem_toFinset, mem_sigChars]

theorem mem_sigSubsets {u a : Sig} : a ∈ sigSubsets u ↔ a ⊆ u := by
  simp only [sigSubsets, List.mem_map, List.mem_sublists]
  constructor
  · rintro ⟨l, hsub, rfl⟩
    intro x hx
    rw [List.mem_toFinset] at hx
    exact mem_sigChars.mp (hsub.subset hx)
  · intro ha
    refine ⟨(sigChars u).filter (fun c => decide (c ∈ a)), List.filter_sublist _, ?_⟩
    rw [List.toFinset_filter, toFinset_sigChars]
    ext x
    simp only [Finset.mem_filter, decide_eq_true_eq]
    constructor
    · rintro ⟨_, h⟩; exact h
    · intro h; exact ⟨ha h, h⟩

theorem mem_navParts {c : Composition} {a : Sig} :
    a ∈ navParts c ↔ ∃ p ∈ c, a ∈ p := by
  simp only [navParts, List.mem_filter, mem_sigSubsets, decide_eq_true_eq]
  constructor
  · rintro ⟨_, hmem⟩
    rw [compParts, Finset.mem_sup] at hmem
    simpa using hmem
  · intro h
    have hmem : a ∈ compParts c := by
      rw [compParts, Finset.mem_sup]
      simpa using h
    have hle : id a ≤ Finset.sup (compParts c) id := Finset.le_sup hmem
    exact ⟨hle, hmem⟩

theorem stageValAt_some {ws : Finset Word} {n : Nat} {kv : Finset Sig × (Sig → NavVal)}
    (h : stageValAt ws n = some kv) :
    (n = 5 ∧ kv = (anagramKeys ws, fun s => NavVal.words (anagram_map ws s))) ∨
    (n = 10 ∧ kv = (twoWordKeys ws, fun s => NavVal.pairs (two_word_map ws s))) ∨
    (n = 15 ∧ kv = (threeWordKeys ws, fun s => NavVal.pairs (three_word_map ws s))) ∨
    (n = 20 ∧ kv = (fourWordKeys ws, fun s => NavVal.pairs (four_word_map ws s))) ∨
    (n = 25 ∧ kv = (fiveWordKeys ws, fun s => NavVal.pairs (five_word_map ws s))) := by
  unfold stageValAt at h
  split_ifs at h with h5 h10 h15 h20 h25
  · injection h with h2; exact Or.inl ⟨h5, h2.symm⟩
  · injection h with h2; exact Or.inr (Or.inl ⟨h10, h2.symm⟩)
  · injection h with h2; exact Or.inr (Or.inr (Or.inl ⟨h15, h2.symm⟩))
  · injection h with h2; exact Or.inr (Or.inr (Or.inr (Or.inl ⟨h20, h2.symm⟩)))
  · injection h with h2; exact Or.inr (Or.inr (Or.inr (Or.inr ⟨h25, h2.symm⟩)))

theorem stageLookup_pairs {ws : Finset Word} {item : Sig} {c : Composition}
    (h : stageLookup ws item = Except.ok (NavVal.pairs c)) :
    ∃ C I : Finset Sig, c = collatorSet C I item ∧
      C ⊆ anagramKeys ws ∪ twoWordKeys ws ∪ fourWordKeys ws ∧
      I ⊆ anagramKeys ws ∪ twoWordKeys ws ∪ fourWordKeys ws := by
  unfold stageLookup at h
  split at h
  next => exact Except.noConfusion h
  next kv hv =>
    split_ifs at h with hk
    · injection h with h2
      rcases stageValAt_some hv with ⟨_, hkv⟩ | ⟨_, hkv⟩ | ⟨_, hkv⟩ | ⟨_, hkv⟩ | ⟨_, hkv⟩
      · subst hkv
        exact NavVal.noConfusion
          (show NavVal.words (anagram_map ws item) = NavVal.pairs c from h2)
      · subst hkv
        have h3 : NavVal.pairs (two_word_map ws item) = NavVal.pairs c := h2
        exact ⟨anagramKeys ws, anagramKeys ws, (NavVal.pairs.inj h3).symm,
          Finset.subset_union_left.trans Finset.subset_union_left,
          Finset.subset_union_left.trans Finset.subset_union_left⟩
      · subst hkv
        have h3 : NavVal.pairs (three_word_map ws item) = NavVal.pairs c := h2
        exact ⟨twoWordKeys ws, anagramKeys ws, (NavVal.pairs.inj h3).symm,
          Finset.subset_union_right.trans Finset.subset_union_left,
          Finset.subset_union_left.trans Finset.subset_union_left⟩
      · subst hkv
        have h3 : NavVal.pairs (four_word_map ws item) = NavVal.pairs c := h2
        exact ⟨twoWordKeys ws, twoWordKeys ws, (NavVal.pairs.inj h3).symm,
          Finset.subset_union_right.trans Finset.subset_union_left,
          Finset.subset_union_right.trans Finset.subset_union_left⟩
      · subst hkv
        have h3 : NavVal.pairs (five_word_map ws item) = NavVal.pairs c := h2
        exact ⟨fourWordKeys ws, anagramKeys ws, (NavVal.pairs.inj h3).symm,
          Finset.subset_union_right,
          Finset.subset_union_left.trans Finset.subset_union_left⟩

theorem mem_navPushes {ws : Finset Word} {item : Sig} {v : NavVal} {a : Sig}
    (hlook : stageLookup ws item = Except.ok v) (ha : a ∈ navPushes item v) :
    a ∈ anagramKeys ws ∪ twoWordKeys ws ∪ fourWordKeys ws := by
  unfold navPushes at ha
  split_ifs at ha with hcard
  · cases v with
    | words s => simp at ha
    | pairs c =>
      obtain ⟨p, hp, hap⟩ := mem_navParts.mp ha
      obtain ⟨C, I, hc, hC, hI⟩ := stageLookup_pairs hlook
      subst hc
      obtain ⟨item0, hI0, mate, hC0, _, _, hpeq⟩ := mem_collatorSet.mp hp
      subst hpeq
      rcases Finset.mem_insert.mp hap with rfl | h1
      · exact hI hI0
      · rw [Finset.mem_singleton] at h1
        subst h1
        exact hC hC0
  · simp at ha

theorem anagramKeys_nonempty {ws : Finset Word} (hws : ([] : Word) ∉ ws) {k : Sig}
    (hk : k ∈ anagramKeys ws) : k ≠ ∅ := by
  obtain ⟨w, hw, rfl⟩ := Finset.mem_image.mp hk
  intro h
  have hw2 := Finset.mem_filter.mp hw
  have hnil : w = [] := by
    cases w with
    | nil => rfl
    | cons c cs =>
      exfalso
      have hc : c ∈ (c :: cs : Word).toFinset := by simp
      rw [h] at hc
      exact absurd hc (Finset.not_mem_empty c)
  rw [hnil] at hw2
  exact hws hw2.1

theorem collatorSetKeys_nonempty {C I : Finset Sig} (hC : ∀ x ∈ C, x ≠ ∅) {k : Sig}
    (hk : k ∈ collatorSetKeys C I) : k ≠ ∅ := by
  obtain ⟨item, _, mate, hmC, _, hun⟩ := mem_collatorSetKeys.mp hk
  intro h
  rw [← hun] at h
  exact hC mate hmC (Finset.union_eq_empty.mp h).1

theorem stage_sig_nonempty {ws : Finset Word} (hws : ([] : Word) ∉ ws) {a : Sig}
    (ha : a ∈ anagramKeys ws ∪ twoWordKeys ws ∪ fourWordKeys ws) : a ≠ ∅ := by
  rcases Finset.mem_union.mp ha with h | h4
  · rcases Finset.mem_union.mp h with h1 | h2
    · exact anagramKeys_nonempty hws h1
    · exact collatorSetKeys_nonempty (fun x hx => anagramKeys_nonempty hws hx) h2
  · exact collatorSetKeys_nonempty
      (fun x hx => collatorSetKeys_nonempty (fun y hy => anagramKeys_nonempty hws hy) hx) h4

theorem stage_pair_card_lt {ws : Finset Word} (hws : ([] : Word) ∉ ws) {item : Sig}
    {c : Composition} {p : PairRec} {a : Sig}
    (hlook : stageLookup ws item = Except.ok (NavVal.pairs c)) (hp : p ∈ c) (hap : a ∈ p) :
    a.card < item.card := by
  obtain ⟨C, I, hc, hC, hI⟩ := stageLookup_pairs hlook
  subst hc
  obtain ⟨item0, hI0, mate, hC0, hint, hun, hpeq⟩ := mem_collatorSet.mp hp
  subst hpeq
  have hcard : item.card = mate.card + item0.card := by
    rw [← hun, Finset.card_union_of_disjoint (Finset.disjoint_iff_inter_eq_empty.mpr hint)]
  have hmate : 0 < mate.card :=
    Finset.card_pos.mpr (Finset.nonempty_iff_ne_empty.mpr (stage_sig_nonempty hws (hC hC0)))
  have hitem0 : 0 < item0.card :=
    Finset.card_pos.mpr (Finset.nonempty_iff_ne_empty.mpr (stage_sig_nonempty hws (hI hI0)))
  rcases Finset.mem_insert.mp hap with rfl | h1
  · omega
  · rw [Finset.mem_singleton] at h1
    subst h1
    omega

theorem nav_terminates_aux (ws : Finset Word) (V : Finset Sig)
    (hU : anagramKeys ws ∪ twoWordKeys ws ∪ fourWordKeys ws ⊆ V) :
    ∀ (n : Nat) (queue : List Sig) (results : List (Sig × NavVal)),
      (∀ s ∈ queue, s ∈ V) → (results.map Prod.fst).Nodup →
      (∀ s ∈ results.map Prod.fst, s ∈ V) → V.card ≤ results.length + n →
      ∃ fuel out, navLoop ws fuel queue results = some out := by
  intro n
  induction n with
  | zero =>
    intro queue
    induction queue with
    | nil =>
      intro results _ _ _ _
      exact ⟨1, Except.ok results, rfl⟩
    | cons item rest ihq =>
      intro results hq hnd hr hcard
      by_cases hmem : item ∈ results.map Prod.fst
      · obtain ⟨fuel, out, hout⟩ :=
          ihq results (fun s hs => hq s (List.mem_cons_of_mem _ hs)) hnd hr hcard
        exact ⟨fuel + 1, out, by simp [navLoop, hmem, hout]⟩
      · exfalso
        have hnd2 : (item :: results.map Prod.fst).Nodup := List.nodup_cons.mpr ⟨hmem, hnd⟩
        have hsub : ∀ s ∈ item :: results.map Prod.fst, s ∈ V := by
          intro s hs
          rcases List.mem_cons.mp hs with rfl | hs2
          · exact hq s (List.mem_cons_self _ _)
          · exact hr s hs2
        have hlen : (item :: results.map Prod.fst).length ≤ V.card := by
          calc (item :: results.map Prod.fst).length
              = (item :: results.map Prod.fst).toFinset.card :=
                (List.toFinset_card_of_nodup hnd2).symm
            _ ≤ V.card :=
                Finset.card_le_card (fun x hx => hsub x (List.mem_toFinset.mp hx))
        rw [List.length_cons, List.length_map] at hlen
        omega
  | succ n ihn =>
    intro queue
    induction queue with
    | nil =>
      intro results _ _ _ _
      exact ⟨1, Except.ok results, rfl⟩
    | cons item rest ihq =>
      intro results hq hnd hr hcard
      by_cases hmem : item ∈ results.map Prod.fst
      · obtain ⟨fuel, out, hout⟩ :=
          ihq results (fun s hs => hq s (List.mem_cons_of_mem _ hs)) hnd hr hcard
        exact ⟨fuel + 1, out, by simp [navLoop, hmem, hout]⟩
      · cases hlook : stageLookup ws item with
        | error e => exact ⟨1, Except.error e, by simp [navLoop, hmem, hlook]⟩
        | ok v =>
          have hitemV : item ∈ V := hq item (List.mem_cons_self _ _)
          have hq2 : ∀ s ∈ rest ++ navPushes item v, s ∈ V := by
            intro s hs
            rcases List.mem_append.mp hs with hs1 | hs2
            · exact hq s (List.mem_cons_of_mem _ hs1)
            · exact hU (mem_navPushes hlook hs2)
          have hnd2 : ((results ++ [(item, v)]).map Prod.fst).Nodup := by
            rw [List.map_append]
            simp [List.nodup_append, hnd, hmem]
          have hr2 : ∀ s ∈ (results ++ [(item, v)]).map Prod.fst, s ∈ V := by
            intro s hs
            rw [List.map_append] at hs
            rcases List.mem_append.mp hs with hs1 | hs2
            · exact hr s hs1
            · simp at hs2
              rw [hs2]
              exact hitemV
          have hcard2 : V.card ≤ (results ++ [(item, v)]).length + n := by
            rw [List.length_append]
            simp only [List.length_singleton]
            omega
          obtain ⟨fuel, out, hout⟩ :=
            ihn (rest ++ navPushes item v) (results ++ [(item, v)]) hq2 hnd2 hr2 hcard2
          exact ⟨fuel + 1, out, by simp [navLoop, hmem, hlook, hout]⟩

theorem navLoop_ok_nodup (ws : Finset Word) :
    ∀ (fuel : Nat) (queue : List Sig) (results res : List (Sig × NavVal)),
      (results.map Prod.fst).Nodup →
      navLoop ws fuel queue results = some (Except.ok res) →
      (res.map Prod.fst).Nodup := by
  intro fuel
  induction fuel with
  | zero =>
    intro queue results res _ h
    exact Option.noConfusion h
  | succ fuel ih =>
    intro queue results res hnd h
    cases queue with
    | nil =>
      simp only [navLoop] at h
      injection h with h2
      injection h2 with h3
      rw [← h3]
      exact hnd
    | cons item rest =>
      simp only [navLoop] at h
      by_cases hmem : item ∈ results.map Prod.fst
      · rw [if_pos hmem] at h
        exact ih rest results res hnd h
      · rw [if_neg hmem] at h
        cases hlook : stageLookup ws item with
        | error e =>
          rw [hlook] at h
          injection h with h2
          exact Except.noConfusion h2
        | ok v =>
          rw [hlook] at h
          refine ih _ _ _ ?_ h
          rw [List.map_append]
          simp [List.nodup_append, hnd, hmem]

set_option maxRecDepth 40000 in
/-- Counterexample to claim C8 as stated: with a corpus containing the empty
word and a ten-letter word, the ten-letter signature is a two-word stage key
(cardinality 10, a multiple of five), yet expanding it pushes that very same
signature back onto the work queue — a pushed component whose cardinality is
not strictly smaller than the popped signature's. -/
theorem c8_strict_decrease_counterexample :
    exSig.card = 10 ∧
    exSig ∈ twoWordKeys exCorpus ∧
    stageLookup exCorpus exSig = Except.ok (NavVal.pairs (two_word_map exCorpus exSig)) ∧
    ({(∅ : Sig), exSig} : PairRec) ∈ two_word_map exCorpus exSig ∧
    exSig ∈ navPushes exSig (NavVal.pairs (two_word_map exCorpus exSig)) ∧
    ¬ exSig.card < exSig.card := by
  decide

/-- Claim C8, amended: the reconstruction walk terminates for every corpus
and every starting collection; when the corpus contains no empty word, every
component signature a stage lookup can push has strictly smaller cardinality
than the signature being expanded; and the visited results dict expands each
signature at most once. -/
theorem c8_navigation_termination :
    (∀ (ws : Finset Word) (start : List Sig),
      ∃ fuel out, navigable_map ws fuel start = some out) ∧
    (∀ ws : Finset Word, ([] : Word) ∉ ws →
      ∀ (item : Sig) (c : Composition) (p : PairRec) (a : Sig),
        stageLookup ws item = Except.ok (NavVal.pairs c) → p ∈ c → a ∈ p →
        a.card < item.card) ∧
    (∀ (ws : Finset Word) (fuel : Nat) (start : List Sig) (res : List (Sig × NavVal)),
      navigable_map ws fuel start = some (Except.ok res) →
      (res.map Prod.fst).Nodup) := by
  refine ⟨?_, ?_, ?_⟩
  · intro ws start
    obtain ⟨fuel, out, h⟩ :=
      nav_terminates_aux ws
        (start.toFinset ∪ (anagramKeys ws ∪ twoWordKeys ws ∪ fourWordKeys ws))
        Finset.subset_union_right
        (start.toFinset ∪ (anagramKeys ws ∪ twoWordKeys ws ∪ fourWordKeys ws)).card
        start []
        (fun s hs => Finset.mem_union_left _ (List.mem_toFinset.mpr hs))
        (by simp) (by simp) (by simp)
    exact ⟨fuel, out, h⟩
  · intro ws hws item c p a hlook hp hap
    exact stage_pair_card_lt hws hlook hp hap
  · intro ws fuel start res h
    exact navLoop_ok_nodup ws fuel start [] res (by simp) h

/-- Witness for the amended C8 at concrete inputs: in the two-word corpus of
disjoint five-letter words, expanding the ten-letter key pushes only
five-letter components; and a completed walk has a duplicate-free results
dict. -/
theorem c8_navigation_termination_witness :
    wordA.toFinset.card < pairKey.card ∧
    (List.map Prod.fst ([] : List (Sig × NavVal))).Nodup :=
  ⟨c8_navigation_termination.2.1 pairCorpus (by decide) pairKey
      (two_word_map pairCorpus pairKey) {wordA.toFinset, wordB.toFinset} wordA.toFinset
      (by decide) (by decide) (by decide),
    c8_navigation_termination.2.2 (∅ : Finset Word) 1 [] [] rfl⟩

/-- Claim C9: a starting signature whose cardinality is not one of
5, 10, 15, 20, 25 (so `lookup_dict[item_len]` fails), or which is absent from
the stage map for its cardinality (so indexing the stage dict fails), makes
the walk fail with a `KeyError` instead of returning a result. -/
theorem c9_nav_lookup_failure :
    ∀ (ws : Finset Word) (s : Sig) (fuel : Nat),
      (stageKeysAt ws s.card = none ∨ ∃ K, stageKeysAt ws s.card = some K ∧ s ∉ K) →
      ∃ e, navigable_map ws (fuel + 1) [s] = some (Except.error e) := by
  intro ws s fuel h
  have hbad : ∃ e, stageLookup ws s = Except.error e := by
    unfold stageLookup
    rcases h with h | ⟨K, hK, hsK⟩
    · rw [stageKeysAt] at h
      cases hv : stageValAt ws s.card with
      | none => exact ⟨NavErr.badLen s.card, rfl⟩
      | some kv =>
        rw [hv] at h
        exact Option.noConfusion h
    · rw [stageKeysAt] at hK
      cases hv : stageValAt ws s.card with
      | none =>
        rw [hv] at hK
        exact Option.noConfusion hK
      | some kv =>
        rw [hv] at hK
        injection hK with hK2
        rw [← hK2] at hsK
        refine ⟨NavErr.missingKey s, ?_⟩
        show (if s ∈ kv.1 then Except.ok (kv.2 s) else Except.error (NavErr.missingKey s))
            = Except.error (NavErr.missingKey s)
        rw [if_neg hsK]
  obtain ⟨e, he⟩ := hbad
  refine ⟨e, ?_⟩
  show navLoop ws (fuel + 1) [s] [] = some (Except.error e)
  simp [navLoop, he]

/-- Witness for C9 at a concrete input: a one-letter signature has no stage
for its cardinality, so the walk fails immediately. -/
theorem c9_nav_lookup_failure_witness :
    ∃ e, navigable_map (∅ : Finset Word) 1 [{'a'}] = some (Except.error e) :=
  c9_nav_lookup_failure ∅ {'a'} 0 (Or.inl (by decide))

end FiveWords
